import Mathlib

/-!
# Verification of the dyslexia screening pipeline (`src/app.py`)

A shallow embedding of the core pipeline of `app.py`: input assembly
(lines 210-229), inference-probability extraction (lines 239-240), risk
classification (lines 248-256), importance ranking (lines 261-266), the CSV
export (lines 270-287) and the PDF report (lines 289-356).

Numeric values that are Python floats in the source are modelled as exact
rationals (`ℚ`), or, where their decimal rendering matters, as decimal
fixed-point numbers (`Dec` below).  Python dictionaries (insertion-ordered)
are modelled as insertion-ordered association lists.
-/

namespace DyslexiaApp

/-- Python `m.get(k, dflt)` on an insertion-ordered dictionary. -/
def getDflt (m : List (String × ℚ)) (k : String) (dflt : ℚ) : ℚ :=
  match m.find? (fun p => p.1 == k) with
  | some p => p.2
  | none => dflt

/-- Python `m[k]`, as an optional lookup (a missing key is a `KeyError`). -/
def lookupVal (m : List (String × ℚ)) (k : String) : Option ℚ :=
  (m.find? (fun p => p.1 == k)).map Prod.snd

/-- Python dictionary assignment `d[k] = v`: replace the entry for `k` if the
key is present, otherwise append `(k, v)` at the end (insertion order). -/
def dictInsert : List (String × ℚ) → String → ℚ → List (String × ℚ)
  | [], k, v => [(k, v)]
  | p :: d, k, v => if p.1 == k then (k, v) :: d else p :: dictInsert d k v

/-- The keys of an insertion-ordered dictionary, in order. -/
def keys (m : List (String × ℚ)) : List String := m.map Prod.fst

/-! ## Feature schema loading (`app.py` lines 180-186)

`features = json.load(f)` and `default_values = json.load(f)`: the decoded
JSON is used directly; the source performs no validation of any kind on the
decoded feature list. -/

/-- A JSON value (as produced by Python's `json.load`). -/
inductive Json where
  | null : Json
  | bool (b : Bool) : Json
  | num (q : ℚ) : Json
  | str (s : String) : Json
  | arr (xs : List Json) : Json
  | obj (kvs : List (String × Json)) : Json

/-- Decode a JSON array's elements as strings. -/
def decodeStrings (xs : List Json) : Except String (List String) :=
  xs.foldr
    (fun j acc =>
      match j, acc with
      | Json.str s, Except.ok l => Except.ok (s :: l)
      | _, _ => Except.error "features.json: expected a list of strings")
    (Except.ok [])

/-- `app.py` lines 182-183: the feature list is the decoded content of
`features.json`.  Decoding fails only if the JSON value is not an array of
strings; the source applies no further check (no emptiness check, no
duplicate-name check) before using `features`. -/
def loadFeatures : Json → Except String (List String)
  | Json.arr xs => decodeStrings xs
  | _ => Except.error "features.json: expected a list"

/-! ## Risk classification (`app.py` lines 248-256)

```python
if prob < 0.3:
    risk_level = "Low"
elif prob < 0.6:
    risk_level = "Moderate"
else:
    risk_level = "High"
```
There is no range check anywhere in this block (and no `raise` in `app.py`);
the chain is total on every probability value. -/

/-- `app.py` lines 248-256: the risk tier of a probability. -/
def risk_level (prob : ℚ) : String :=
  if prob < mkRat 3 10 then "Low"
  else if prob < mkRat 6 10 then "Moderate"
  else "High"

/-! ## Input assembly (`app.py` lines 210-229)

`inputs` is built as a Python dict: `inputs["Age"]` is always assigned first
from the Age widget, then every non-`"Age"` schema feature is assigned from
its own widget, in schema order.  `st.number_input(label, value=d)` returns
the caller's override for that widget when one was entered, and the supplied
default `d` otherwise; this is modelled by an `overrides` dictionary. -/

/-- `st.number_input(label, value=dflt)`: the user's override for `label`
when present, else the default shown in the widget. -/
def numberInput (overrides : List (String × ℚ)) (label : String) (dflt : ℚ) : ℚ :=
  getDflt overrides label dflt

/-- Fold inserting each feature of `fs` (except `"Age"`, which the source
skips in its loop) into the dictionary `d` with value `g f`. -/
def insertAll (d : List (String × ℚ)) (fs : List String) (g : String → ℚ) :
    List (String × ℚ) :=
  fs.foldl (fun d f => if f == "Age" then d else dictInsert d f (g f)) d

/-- `app.py` lines 210-229: the assembled `inputs` dictionary.
`inputs["Age"] = st.number_input("Age", value=age_default, ...)` with
`age_default = float(default_values.get("Age", 10.0)) if use_defaults else
10.0`, then for each non-Age `feature` in `features`,
`inputs[feature] = st.number_input(feature, value=base_val)` with
`base_val = float(default_values.get(feature, 0.0)) if use_defaults else
0.0`. -/
def assembleInputs (features : List String) (default_values overrides : List (String × ℚ))
    (use_defaults : Bool) : List (String × ℚ) :=
  let age_default :=
    if use_defaults then getDflt default_values "Age" (10 : ℚ) else (10 : ℚ)
  let d0 := dictInsert [] "Age" (numberInput overrides "Age" age_default)
  insertAll d0 features fun feature =>
    numberInput overrides feature
      (if use_defaults then getDflt default_values feature 0 else 0)

/-! ## Positive-class probability extraction (`app.py` lines 239-240) -/

/-- The opaque model artifact: its class-label ordering (`model.classes_`)
and its per-class probability row for a single input vector
(`model.predict_proba(df)[0]`). -/
structure Model where
  classes : List ℤ
  proba : List ℚ → List ℚ

/-- `app.py` line 240: `prob = model.predict_proba(input_df)[0][1]` — the
reported dyslexia probability is the entry at hardcoded position 1 of the
per-class probability row (`none` models Python's `IndexError`).  The
model's `classes` field is never consulted. -/
def positiveProb (m : Model) (v : List ℚ) : Option ℚ :=
  (m.proba v).get? 1

/-! ## Dictionary lemmas -/

theorem lookupVal_nil (k : String) : lookupVal [] k = none := rfl

theorem lookupVal_cons (p : String × ℚ) (d : List (String × ℚ)) (k : String) :
    lookupVal (p :: d) k = if p.1 = k then some p.2 else lookupVal d k := by
  by_cases h : p.1 = k
  · simp [lookupVal, List.find?_cons_of_pos, h]
  · simp [lookupVal, List.find?_cons_of_neg, h]

theorem keys_cons (p : String × ℚ) (d : List (String × ℚ)) :
    keys (p :: d) = p.1 :: keys d := rfl

theorem dictInsert_cons (p : String × ℚ) (d : List (String × ℚ)) (k : String) (v : ℚ) :
    dictInsert (p :: d) k v =
      if p.1 = k then (k, v) :: d else p :: dictInsert d k v := by
  by_cases h : p.1 = k
  · rw [if_pos h]; simp [dictInsert, h]
  · rw [if_neg h]; simp [dictInsert, h]

theorem lookupVal_dictInsert (d : List (String × ℚ)) (k k' : String) (v : ℚ) :
    lookupVal (dictInsert d k v) k' =
      if k' = k then some v else lookupVal d k' := by
  induction d with
  | nil =>
      show lookupVal [(k, v)] k' = _
      rw [lookupVal_cons]
      by_cases h : k' = k
      · simp [h]
      · simp [h, Ne.symm h, lookupVal_nil]
  | cons p d ih =>
      rw [dictInsert_cons]
      by_cases hp : p.1 = k
      · rw [if_pos hp, lookupVal_cons, lookupVal_cons]
        by_cases h : k' = k
        · simp [h]
        · have h1 : ¬ (k, v).1 = k' := fun hc => h hc.symm
          have hpk' : ¬ p.1 = k' := by rw [hp]; exact fun hc => h hc.symm
          rw [if_neg h1, if_neg h, if_neg hpk']
      · rw [if_neg hp, lookupVal_cons, lookupVal_cons, ih]
        by_cases hq : p.1 = k'
        · have h : ¬ k' = k := fun hc => hp (hq.trans hc)
          simp [hq, h]
        · simp [hq]

theorem keys_dictInsert_not_mem (d : List (String × ℚ)) (k : String) (v : ℚ)
    (h : k ∉ keys d) : keys (dictInsert d k v) = keys d ++ [k] := by
  induction d with
  | nil => simp [dictInsert, keys]
  | cons p d ih =>
      rw [keys_cons] at h
      rw [dictInsert_cons,
        if_neg (fun hc => h (by rw [← hc]; exact List.mem_cons_self _ _)),
        keys_cons, keys_cons, ih (fun hc => h (List.mem_cons_of_mem _ hc))]
      simp

theorem insertAll_cons (d : List (String × ℚ)) (f : String) (fs : List String)
    (g : String → ℚ) :
    insertAll d (f :: fs) g =
      insertAll (if f = "Age" then d else dictInsert d f (g f)) fs g := by
  by_cases h : f = "Age"
  · rw [if_pos h]
    show insertAll (if (f == "Age") = true then d else _) fs g = _
    simp [h]
  · rw [if_neg h]
    show insertAll (if (f == "Age") = true then d else _) fs g = _
    simp [h]

theorem lookupVal_insertAll (fs : List String) (d : List (String × ℚ))
    (g : String → ℚ) (x : String) :
    lookupVal (insertAll d fs g) x =
      if x ≠ "Age" ∧ x ∈ fs then some (g x) else lookupVal d x := by
  induction fs generalizing d with
  | nil => simp [insertAll]
  | cons f fs ih =>
      rw [insertAll_cons, ih]
      by_cases hfa : f = "Age"
      · rw [if_pos hfa]
        by_cases hxa : x = "Age"
        · simp [hxa]
        · by_cases hxfs : x ∈ fs
          · simp [hxa, hxfs]
          · have hxf : ¬ x = f := fun hc => hxa (hc.trans hfa)
            simp [hxa, hxfs, hxf]
      · rw [if_neg hfa, lookupVal_dictInsert]
        by_cases hxa : x = "Age"
        · subst hxa
          have hxf : ¬ ("Age" : String) = f := fun hc => hfa hc.symm
          simp [hxf]
        · by_cases hxfs : x ∈ fs
          · simp [hxa, hxfs]
          · by_cases hxf : x = f <;> simp [hxa, hxfs, hxf, hfa]

theorem keys_insertAll (fs : List String) (d : List (String × ℚ)) (g : String → ℚ)
    (hd : ∀ f ∈ fs, f = "Age" ∨ f ∉ keys d) (hnd : fs.Nodup) :
    keys (insertAll d fs g) = keys d ++ fs.filter (fun f => f ≠ "Age") := by
  induction fs generalizing d with
  | nil => simp [insertAll]
  | cons f fs ih =>
      rw [insertAll_cons]
      by_cases hfa : f = "Age"
      · rw [if_pos hfa,
          ih d (fun x hx => hd x (List.mem_cons_of_mem _ hx)) hnd.of_cons]
        simp [hfa]
      · rw [if_neg hfa]
        have hfd : f ∉ keys d := by
          rcases hd f (List.mem_cons_self f fs) with h | h
          · exact absurd h hfa
          · exact h
        have hkeys := keys_dictInsert_not_mem d f (g f) hfd
        rw [ih (dictInsert d f (g f)) ?_ hnd.of_cons, hkeys]
        · simp [hfa]
        · intro x hx
          rcases hd x (List.mem_cons_of_mem _ hx) with h | h
          · exact Or.inl h
          · refine Or.inr ?_
            rw [hkeys]
            simp only [List.mem_append, List.mem_singleton]
            rintro (hc | hc)
            · exact h hc
            · exact (List.nodup_cons.mp hnd).1 (hc ▸ hx)

theorem decodeStrings_map (xs : List String) :
    decodeStrings (xs.map Json.str) = Except.ok xs := by
  induction xs with
  | nil => rfl
  | cons x xs ih =>
      show (match Json.str x, decodeStrings (xs.map Json.str) with
        | Json.str s, Except.ok l => Except.ok (s :: l)
        | _, _ => Except.error "features.json: expected a list of strings") = _
      rw [ih]

/-! ## Claim theorems: classification, loading, assembly, probability -/

/-- C1: for every probability p in [0,1] the risk classification is total and
partitions the interval with no gap or overlap: p < 0.30 is tier "Low",
0.30 ≤ p < 0.60 is tier "Moderate", p ≥ 0.60 is tier "High"; the lower
bounds are inclusive, so p = 3/10 gives "Moderate" and p = 6/10 gives
"High". -/
theorem risk_level_partitions (p : ℚ) (h0 : 0 ≤ p) (h1 : p ≤ 1) :
    (risk_level p = "Low" ↔ p < mkRat 3 10) ∧
    (risk_level p = "Moderate" ↔ mkRat 3 10 ≤ p ∧ p < mkRat 6 10) ∧
    (risk_level p = "High" ↔ mkRat 6 10 ≤ p) ∧
    risk_level (mkRat 3 10) = "Moderate" ∧ risk_level (mkRat 6 10) = "High" := by
  have h36 : (mkRat 3 10 : ℚ) < mkRat 6 10 := by decide
  refine ⟨?_, ?_, ?_, by decide, by decide⟩ <;>
    · unfold risk_level
      split_ifs with hA hB <;> simp_all <;> linarith

/-- C1 witness at p = 1/2 (tier "Moderate"). -/
theorem risk_level_partitions_witness :
    (0 : ℚ) ≤ mkRat 1 2 ∧ (mkRat 1 2 : ℚ) ≤ 1 ∧
      (risk_level (mkRat 1 2) = "Moderate" ↔
        mkRat 3 10 ≤ mkRat 1 2 ∧ mkRat 1 2 < mkRat 6 10) :=
  ⟨by decide, by decide,
    (risk_level_partitions (mkRat 1 2) (by decide) (by decide)).2.1⟩

/-- C7 counterexample: out-of-range probabilities do not fail — the source
has no range check and no raise, so p = -1 is classified "Low" and p = 2 is
classified "High" instead of raising a DomainError. -/
theorem risk_level_out_of_range_counterexample :
    risk_level (mkRat (-1) 1) = "Low" ∧ risk_level (mkRat 2 1) = "High" := by
  decide

/-- C7 amended: the risk classification never fails: it is total on every
rational probability and returns one of the three tiers, applying the same
thresholds even outside [0,1]. -/
theorem risk_level_total (p : ℚ) :
    risk_level p = "Low" ∨ risk_level p = "Moderate" ∨ risk_level p = "High" := by
  unfold risk_level
  split_ifs <;> simp

/-- C8 counterexample: the empty feature definition and a definition with a
duplicate name are both accepted by the load step — no SchemaError is
raised. -/
theorem loadFeatures_no_validation_counterexample :
    loadFeatures (Json.arr []) = Except.ok [] ∧
    loadFeatures (Json.arr [Json.str "Age", Json.str "Age"]) =
      Except.ok ["Age", "Age"] :=
  ⟨rfl, rfl⟩

/-- C8 amended: schema loading performs no validation at all — every decoded
list of feature-name strings, including the empty list and lists containing
duplicate names, is accepted verbatim at startup. -/
theorem loadFeatures_accepts_everything (xs : List String) :
    loadFeatures (Json.arr (xs.map Json.str)) = Except.ok xs :=
  decodeStrings_map xs

/-- C2: for every schema feature, in schema order, the assembled value is the
caller's override when present, otherwise (when use_defaults) the recorded
typical value with fallback 0 (10 for "Age"), otherwise 0 (10 for "Age");
and with empty overrides and use_defaults = true the value is exactly the
recorded typical value with "Age" defaulting to 10 when absent. -/
theorem assembleInputs_values (features : List String)
    (D O : List (String × ℚ)) (u : Bool) (f : String) (hf : f ∈ features) :
    lookupVal (assembleInputs features D O u) f =
      some (numberInput O f
        (if u then getDflt D f (if f = "Age" then 10 else 0)
         else if f = "Age" then 10 else 0)) ∧
    lookupVal (assembleInputs features D [] true) f =
      some (getDflt D f (if f = "Age" then 10 else 0)) := by
  have key : ∀ (O' : List (String × ℚ)) (u' : Bool),
      lookupVal (assembleInputs features D O' u') f =
        some (numberInput O' f
          (if u' then getDflt D f (if f = "Age" then 10 else 0)
           else if f = "Age" then 10 else 0)) := by
    intro O' u'
    show lookupVal (insertAll (dictInsert [] "Age" (numberInput O' "Age"
        (if u' then getDflt D "Age" (10 : ℚ) else (10 : ℚ)))) features
        (fun feature => numberInput O' feature
          (if u' then getDflt D feature 0 else 0))) f = _
    rw [lookupVal_insertAll]
    by_cases hfa : f = "Age"
    · subst hfa
      simp [dictInsert, lookupVal_cons]
    · simp [hfa, hf]
  refine ⟨key O u, ?_⟩
  rw [key [] true]
  simp [numberInput, getDflt, List.find?]

/-- C2 witness: schema [Age, TaskA], defaults {Age:9, TaskA:5}, override
{TaskA:7}, use_defaults = true: TaskA comes out as the override 7. -/
theorem assembleInputs_values_witness :
    ("TaskA" : String) ∈ ["Age", "TaskA"] ∧
    lookupVal (assembleInputs ["Age", "TaskA"] [("Age", 9), ("TaskA", 5)]
      [("TaskA", 7)] true) "TaskA" = some 7 := by
  refine ⟨by decide, ?_⟩
  have h := (assembleInputs_values ["Age", "TaskA"] [("Age", 9), ("TaskA", 5)]
    [("TaskA", 7)] true "TaskA" (by decide)).1
  rw [h]
  decide

/-- C3 counterexample: with schema ["TaskA"] (which does not list "Age"), the
assembled vector still contains "Age", placed first — its key list is
["Age", "TaskA"], not the schema's ["TaskA"]: an extra key was added. -/
theorem assembleInputs_keys_counterexample :
    keys (assembleInputs ["TaskA"] [] [] true) = ["Age", "TaskA"] ∧
    keys (assembleInputs ["TaskA"] [] [] true) ≠ ["TaskA"] := by
  decide

/-- C3 amended: for every duplicate-free schema, all overrides and either
use_defaults value, the assembled vector's keys are "Age" first, followed by
the schema's non-"Age" features in schema order; in particular they equal the
schema exactly when the schema lists "Age" first. -/
theorem assembleInputs_keys (features : List String)
    (D O : List (String × ℚ)) (u : Bool) (hnd : features.Nodup) :
    keys (assembleInputs features D O u) =
      "Age" :: features.filter (fun f => f ≠ "Age") ∧
    (∀ rest, features = "Age" :: rest → "Age" ∉ rest →
      keys (assembleInputs features D O u) = features) := by
  have key : keys (assembleInputs features D O u) =
      "Age" :: features.filter (fun f => f ≠ "Age") := by
    show keys (insertAll (dictInsert [] "Age" _) features _) = _
    rw [keys_insertAll features _ _ ?_ hnd]
    · rfl
    · intro f _
      by_cases hfa : f = "Age"
      · exact Or.inl hfa
      · refine Or.inr ?_
        show f ∉ keys [("Age", _)]
        simp [keys, hfa]
  refine ⟨key, ?_⟩
  intro rest hrest hmem
  rw [key, hrest]
  have hfilter : rest.filter (fun f => f ≠ "Age") = rest := by
    refine List.filter_eq_self.mpr ?_
    intro a ha
    simp only [ne_eq, decide_eq_true_eq]
    exact fun hc => hmem (hc ▸ ha)
  simp only [List.filter_cons, decide_eq_true_eq, ne_eq, hfilter]
  simp [hfilter]

/-- C3 amended witness: a schema listing "Age" first is reproduced exactly. -/
theorem assembleInputs_keys_witness :
    (["Age", "TaskA"] : List String).Nodup ∧
    keys (assembleInputs ["Age", "TaskA"] [] [] false) = ["Age", "TaskA"] := by
  refine ⟨by decide, ?_⟩
  exact (assembleInputs_keys ["Age", "TaskA"] [] [] false (by decide)).2
    ["TaskA"] rfl (by decide)

/-- C10: the reported dyslexia probability is the entry at the hardcoded
array position 1 of the model's per-class probability row: it is identical
for two models that differ only in their class-label ordering, and whenever
the row has at least two entries it is exactly the row's element 1. -/
theorem positiveProb_hardcoded_index (cs1 cs2 : List ℤ)
    (pr : List ℚ → List ℚ) (v : List ℚ) (h : 1 < (pr v).length) :
    positiveProb ⟨cs1, pr⟩ v = positiveProb ⟨cs2, pr⟩ v ∧
    positiveProb ⟨cs1, pr⟩ v = some ((pr v).get ⟨1, h⟩) := by
  refine ⟨rfl, ?_⟩
  simp [positiveProb, List.get?_eq_get h]

/-- C10 witness: a two-class probability row, two opposite class orderings. -/
theorem positiveProb_hardcoded_index_witness :
    1 < ([mkRat 3 10, mkRat 7 10] : List ℚ).length ∧
    positiveProb ⟨[0, 1], fun _ => [mkRat 3 10, mkRat 7 10]⟩ [] =
      positiveProb ⟨[1, 0], fun _ => [mkRat 3 10, mkRat 7 10]⟩ [] := by
  refine ⟨by decide, ?_⟩
  exact (positiveProb_hardcoded_index [0, 1] [1, 0]
    (fun _ => [mkRat 3 10, mkRat 7 10]) [] (by decide)).1

/-! ## Importance ranking (`app.py` lines 261-266)

```python
importances = model.feature_importances_
fi_df = pd.DataFrame({"feature": features, "importance": importances})
fi_top = fi_df.sort_values("importance", ascending=False).head(10)
```
-/

/-- pandas `DataFrame.sort_values(col, ascending=False)` for a single
column: `nargsort` reverses the values and their indices, takes an ascending
argsort of the reversed values, and reverses the resulting indexer again
(`non_nans = non_nans[::-1]; non_nan_idx = non_nan_idx[::-1]; ...;
indexer = indexer[::-1]`), precisely so that a descending sort is stable:
ties keep their original (schema) order.  On arrays as small as this app's
feature list numpy's default sort kind degenerates to insertion sort, which
is stable, so the result is `reverse (stable ascending sort (reverse l))`. -/
def sort_values_desc (l : List (String × ℚ)) : List (String × ℚ) :=
  (List.insertionSort (fun a b => a.2 ≤ b.2) l.reverse).reverse

/-- `app.py` lines 262-264: pair each schema feature with its importance
score, sort descending by score, keep the first `k` (the source fixes
`k = 10` via `.head(10)`). -/
def topFeatures (features : List String) (importances : List ℚ) (k : ℕ) :
    List (String × ℚ) :=
  (sort_values_desc (features.zip importances)).take k

theorem filter_orderedInsert_score (q : ℚ) (a : String × ℚ)
    (l : List (String × ℚ)) :
    (List.orderedInsert (fun x y => x.2 ≤ y.2) a l).filter
        (fun x => x.2 == q) =
      if a.2 == q then a :: l.filter (fun x => x.2 == q)
      else l.filter (fun x => x.2 == q) := by
  induction l with
  | nil =>
      by_cases ha : (a.2 == q) = true <;>
        simp [List.orderedInsert, List.filter, ha]
  | cons b l ih =>
      show ((if a.2 ≤ b.2 then a :: b :: l
        else b :: List.orderedInsert (fun x y => x.2 ≤ y.2) a l).filter
          (fun x => x.2 == q)) = _
      by_cases hab : a.2 ≤ b.2
      · rw [if_pos hab]
        by_cases ha : (a.2 == q) = true <;>
          simp [List.filter_cons, ha]
      · rw [if_neg hab, List.filter_cons, List.filter_cons, ih]
        by_cases ha : (a.2 == q) = true
        · have hb : (b.2 == q) = false := by
            have hq : a.2 = q := by simpa using ha
            have hlt : b.2 < a.2 := lt_of_not_le hab
            simp only [beq_eq_false_iff_ne, ne_eq]
            intro hc
            rw [hq] at hlt
            rw [hc] at hlt
            exact lt_irrefl q hlt
          simp [ha, hb, List.filter_cons]
        · simp [ha]

theorem filter_insertionSort_score (q : ℚ) (l : List (String × ℚ)) :
    (List.insertionSort (fun x y => x.2 ≤ y.2) l).filter
        (fun x => x.2 == q) = l.filter (fun x => x.2 == q) := by
  induction l with
  | nil => rfl
  | cons a l ih =>
      show (List.orderedInsert (fun x y => x.2 ≤ y.2) a
        (List.insertionSort (fun x y => x.2 ≤ y.2) l)).filter
          (fun x => x.2 == q) = _
      rw [filter_orderedInsert_score, ih]
      by_cases ha : (a.2 == q) = true <;> simp [List.filter_cons, ha]

theorem sort_values_desc_stable (q : ℚ) (l : List (String × ℚ)) :
    (sort_values_desc l).filter (fun x => x.2 == q) =
      l.filter (fun x => x.2 == q) := by
  rw [sort_values_desc, List.filter_reverse, filter_insertionSort_score,
    List.filter_reverse, List.reverse_reverse]

/-- C6: when the importance vector has the schema's cardinality and order,
topFeatures(k) has length min(k, schema size), is sorted descending by
score, and the sort is stable: ties keep schema order (pandas `nargsort`
reverses the column before the stable ascending argsort and reverses the
indexer after, so the reversals cancel on ties).  Stability is stated the
standard way: for every score q, the tied entries of the untruncated
ranking coincide with the schema-order pairing's entries at q, and any
truncation's tied entries are a subsequence of them; the untruncated
ranking is a permutation of the pairing. -/
theorem topFeatures_sorted_stable (features : List String) (imps : List ℚ)
    (k : ℕ) (hlen : features.length = imps.length) :
    (topFeatures features imps k).length = min k features.length ∧
    (topFeatures features imps k).Pairwise (fun a b => b.2 ≤ a.2) ∧
    (topFeatures features imps features.length).Perm (features.zip imps) ∧
    (∀ q : ℚ, (topFeatures features imps features.length).filter
        (fun p => p.2 == q) =
      (features.zip imps).filter (fun p => p.2 == q)) ∧
    (∀ q : ℚ, ((topFeatures features imps k).filter
        (fun p => p.2 == q)).Sublist
      ((features.zip imps).filter (fun p => p.2 == q))) := by
  haveI hTot : IsTotal (String × ℚ) (fun a b => a.2 ≤ b.2) :=
    ⟨fun a b => le_total a.2 b.2⟩
  haveI hTrans : IsTrans (String × ℚ) (fun a b => a.2 ≤ b.2) :=
    ⟨fun _ _ _ h1 h2 => le_trans h1 h2⟩
  have hsortlen : (sort_values_desc (features.zip imps)).length =
      features.length := by
    simp [sort_values_desc, List.length_insertionSort, List.length_zip, hlen]
  have huntrunc : topFeatures features imps features.length =
      sort_values_desc (features.zip imps) := by
    rw [topFeatures, List.take_of_length_le (le_of_eq hsortlen)]
  refine ⟨?_, ?_, ?_, ?_, ?_⟩
  · simp [topFeatures, List.length_take, hsortlen]
  · have hsorted := List.sorted_insertionSort (fun a b => a.2 ≤ b.2)
      (features.zip imps).reverse
    have hrev : (sort_values_desc (features.zip imps)).Pairwise
        (fun a b => b.2 ≤ a.2) := by
      rw [sort_values_desc, List.pairwise_reverse]
      exact hsorted
    exact hrev.sublist (List.take_sublist k _)
  · rw [huntrunc]
    exact (List.reverse_perm _).trans
      ((List.perm_insertionSort (fun a b => a.2 ≤ b.2)
        (features.zip imps).reverse).trans (List.reverse_perm _))
  · intro q
    rw [huntrunc]
    exact sort_values_desc_stable q (features.zip imps)
  · intro q
    have hsub : (topFeatures features imps k).Sublist
        (sort_values_desc (features.zip imps)) := List.take_sublist k _
    have := hsub.filter (fun p => p.2 == q)
    rwa [sort_values_desc_stable q (features.zip imps)] at this

/-- C6 witness: two features tied at the same score stay in schema order
("Age" before "TaskA"). -/
theorem topFeatures_sorted_stable_witness :
    (["Age", "TaskA"] : List String).length =
      ([mkRat 1 2, mkRat 1 2] : List ℚ).length ∧
    (topFeatures ["Age", "TaskA"] [mkRat 1 2, mkRat 1 2]
        (["Age", "TaskA"] : List String).length).filter
        (fun p => p.2 == mkRat 1 2) =
      ((["Age", "TaskA"] : List String).zip
        [mkRat 1 2, mkRat 1 2]).filter (fun p => p.2 == mkRat 1 2) := by
  refine ⟨by decide, ?_⟩
  exact (topFeatures_sorted_stable ["Age", "TaskA"] [mkRat 1 2, mkRat 1 2]
    2 (by decide)).2.2.2.1 (mkRat 1 2)

/-! ## PDF interpretation paragraph and its wrapping (`app.py` lines 320-342) -/

/-- `app.py` lines 321-335: the interpretation paragraph selected by tier
(the `else` arm covers every string that is not "Low" or "Moderate"). -/
def interpretationText (risk : String) : String :=
  if risk == "Low" then
    "Pattern looks similar to non-dyslexic students in the dataset. This is not a diagnosis; continue monitoring literacy progress."
  else if risk == "Moderate" then
    "Pattern appears in both dyslexic and non-dyslexic students. Consider further screening and closer monitoring."
  else
    "Pattern is similar to students labeled with dyslexia in the dataset. Recommend follow-up with a qualified professional for a full assessment."

/-- Chunking worker: peel off 90-character chunks; `fuel` bounds the number
of steps (the caller passes the string length, which always suffices since
each step drops 90 > 0 characters). -/
def wrapGo : ℕ → List Char → List (List Char)
  | 0, _ => []
  | fuel + 1, s => if s.isEmpty then [] else s.take 90 :: wrapGo fuel (s.drop 90)

/-- `app.py` lines 338-339: `max_chars = 90;
lines = [txt[i:i+max_chars] for i in range(0, len(txt), max_chars)]` —
fixed-width slicing of the paragraph into consecutive chunks of 90
characters. -/
def wrapLines90 (s : List Char) : List (List Char) := wrapGo s.length s

theorem wrapGo_flatten (fuel : ℕ) :
    ∀ s : List Char, s.length ≤ fuel → (wrapGo fuel s).flatten = s := by
  induction fuel with
  | zero =>
      intro s h
      have hs : s = [] := List.length_eq_zero.mp (Nat.le_zero.mp h)
      simp [wrapGo, hs]
  | succ f ih =>
      intro s h
      cases hs : s.isEmpty
      · simp only [wrapGo, hs, Bool.false_eq_true, if_false]
        rw [List.flatten_cons, ih (s.drop 90) ?_, List.take_append_drop]
        simp only [List.length_drop]
        have hpos : 0 < s.length :=
          List.length_pos.mpr (by simpa using hs)
        omega
      · have : s = [] := by simpa using hs
        simp [wrapGo, this]

theorem wrapGo_width (fuel : ℕ) :
    ∀ s : List Char, ∀ l ∈ wrapGo fuel s, l.length ≤ 90 := by
  induction fuel with
  | zero => intro s l hl; simp [wrapGo] at hl
  | succ f ih =>
      intro s l hl
      cases hs : s.isEmpty
      · simp only [wrapGo, hs, Bool.false_eq_true, if_false] at hl
        rcases List.mem_cons.mp hl with hl | hl
        · subst hl
          simpa using min_le_left 90 s.length
        · exact ih (s.drop 90) l hl
      · simp [wrapGo, hs] at hl

theorem wrapLines90_flatten (s : List Char) : (wrapLines90 s).flatten = s :=
  wrapGo_flatten s.length s le_rfl

theorem wrapLines90_width (s : List Char) :
    ∀ l ∈ wrapLines90 s, l.length ≤ 90 :=
  wrapGo_width s.length s

/-- C9: for the interpretation paragraph selected by any risk tier, the
90-character wrapping never truncates — concatenating the emitted lines
reproduces the whole paragraph — and every emitted line is at most 90
characters wide. -/
theorem interpretation_wrap_exact (risk : String) :
    (wrapLines90 (interpretationText risk).data).flatten =
      (interpretationText risk).data ∧
    ∀ l ∈ wrapLines90 (interpretationText risk).data, l.length ≤ 90 :=
  ⟨wrapLines90_flatten _, wrapLines90_width _⟩

/-! ## Decimal rendering and parsing

The CSV export (`app.py` lines 270-287) writes the report's numeric fields
as decimal text (pandas renders each float by its shortest round-tripping
decimal, and each int by its digits) and `pd.read_csv` parses that text
back.  `Dec` is the exact value denoted by such a decimal string —
`mant / 10^exp` — and `printDec`/`parseDec` are the rendering and parsing of
that decimal text. -/

/-- Little-endian decimal digits of `n`; `fuel` bounds the recursion (the
callers pass `n` itself, which always suffices). -/
def toDigitsLE : ℕ → ℕ → List ℕ
  | 0, _ => []
  | fuel + 1, n => if n = 0 then [] else n % 10 :: toDigitsLE fuel (n / 10)

/-- Big-endian decimal digits of `n` (empty for 0). -/
def natDigitsBE (n : ℕ) : List ℕ := (toDigitsLE n n).reverse

/-- The numeric value of a big-endian digit list. -/
def ofDigitsBE (ds : List ℕ) : ℕ := ds.foldl (fun a d => 10 * a + d) 0

/-- Left-pad a digit list with zeros to length at least `k`. -/
def padDigits (k : ℕ) (ds : List ℕ) : List ℕ :=
  List.replicate (k - ds.length) 0 ++ ds

/-- The character of a single decimal digit. -/
def digitChar (d : ℕ) : Char := Char.ofNat (48 + d)

/-- A decimal fixed-point number `mant / 10^exp`: the exact value denoted by
the decimal strings Python writes for floats (`exp > 0`) and ints
(`exp = 0`). -/
structure Dec where
  mant : ℤ
  exp : ℕ
deriving DecidableEq

/-- The rational value of a decimal fixed-point number. -/
def Dec.toRat (d : Dec) : ℚ := mkRat d.mant (10 ^ d.exp)

/-- Decimal rendering of a magnitude: the digits of `m`, left-padded so that
at least one digit precedes the point, and for `exp > 0` a point followed by
exactly `exp` fractional digits. -/
def printDecUnsigned (m : ℕ) (e : ℕ) : List Char :=
  let ds := padDigits (e + 1) (natDigitsBE m)
  (ds.take (ds.length - e)).map digitChar ++
    (if e = 0 then [] else '.' :: (ds.drop (ds.length - e)).map digitChar)

/-- Decimal rendering of a fixed-point number: optional minus sign followed
by the rendering of the magnitude. -/
def printDec (d : Dec) : List Char :=
  (if d.mant < 0 then ['-'] else []) ++ printDecUnsigned d.mant.natAbs d.exp

/-- Digit-character test, '0' through '9'. -/
def isDigitCh (c : Char) : Bool := 48 ≤ c.toNat && c.toNat ≤ 57

/-- The numeric value of a digit character. -/
def charToDigit (c : Char) : ℕ := c.toNat - 48

/-- The numeric value of a string of digit characters. -/
def digitsVal (cs : List Char) : ℕ := ofDigitsBE (cs.map charToDigit)

/-- Split a character list at its first '.', if any. -/
def splitDot : List Char → Option (List Char × List Char)
  | [] => none
  | c :: cs =>
      if c = '.' then some ([], cs)
      else (splitDot cs).map (fun p => (c :: p.1, p.2))

/-- Parse an unsigned decimal string — digits, optionally with one point and
at least one digit on each side — into a decimal fixed-point number. -/
def parseUnsigned (cs : List Char) : Option Dec :=
  match splitDot cs with
  | none =>
      if !cs.isEmpty && cs.all isDigitCh then
        some ⟨(digitsVal cs : ℤ), 0⟩
      else none
  | some (ip, fp) =>
      if !ip.isEmpty && ip.all isDigitCh && (!fp.isEmpty && fp.all isDigitCh) then
        some ⟨(digitsVal ip * 10 ^ fp.length + digitsVal fp : ℤ), fp.length⟩
      else none

/-- Parse a decimal string with an optional leading minus sign. -/
def parseDec (cs : List Char) : Option Dec :=
  if cs.head? = some '-' then
    (parseUnsigned cs.tail).map (fun d => ⟨-d.mant, d.exp⟩)
  else parseUnsigned cs

/-! ### Digit lemmas -/

theorem foldl_digits_general (b : List ℕ) (a : ℕ) :
    b.foldl (fun x d => 10 * x + d) a = a * 10 ^ b.length + ofDigitsBE b := by
  induction b generalizing a with
  | nil => simp [ofDigitsBE]
  | cons d t ih =>
      show t.foldl _ (10 * a + d) = _
      rw [ih (10 * a + d)]
      have hval : ofDigitsBE (d :: t) = t.foldl (fun x d => 10 * x + d) (10 * 0 + d) := rfl
      rw [hval, ih (10 * 0 + d)]
      simp [List.length_cons]
      ring

theorem ofDigitsBE_append (a b : List ℕ) :
    ofDigitsBE (a ++ b) = ofDigitsBE a * 10 ^ b.length + ofDigitsBE b := by
  show (a ++ b).foldl _ 0 = _
  rw [List.foldl_append]
  exact foldl_digits_general b (a.foldl (fun x d => 10 * x + d) 0)

theorem ofDigitsBE_replicate_zero (j : ℕ) :
    ofDigitsBE (List.replicate j 0) = 0 := by
  induction j with
  | zero => rfl
  | succ n ih =>
      rw [List.replicate_succ]
      show (List.replicate n 0).foldl _ (10 * 0 + 0) = 0
      simpa [ofDigitsBE] using ih

theorem ofDigitsBE_padDigits (k : ℕ) (ds : List ℕ) :
    ofDigitsBE (padDigits k ds) = ofDigitsBE ds := by
  rw [padDigits, ofDigitsBE_append, ofDigitsBE_replicate_zero]
  simp

theorem ofDigitsBE_toDigitsLE (fuel : ℕ) :
    ∀ n : ℕ, n ≤ fuel → ofDigitsBE (toDigitsLE fuel n).reverse = n := by
  induction fuel with
  | zero =>
      intro n h
      have : n = 0 := Nat.le_zero.mp h
      simp [toDigitsLE, ofDigitsBE, this]
  | succ f ih =>
      intro n h
      by_cases hn : n = 0
      · simp [toDigitsLE, ofDigitsBE, hn]
      · show ofDigitsBE (if n = 0 then [] else n % 10 :: toDigitsLE f (n / 10)).reverse = n
        rw [if_neg hn, List.reverse_cons, ofDigitsBE_append,
          ih (n / 10) (by omega)]
        show n / 10 * 10 ^ 1 + ofDigitsBE [n % 10] = n
        have : ofDigitsBE [n % 10] = n % 10 := by
          show 10 * 0 + n % 10 = n % 10
          omega
        rw [this]
        omega

theorem ofDigitsBE_natDigitsBE (n : ℕ) : ofDigitsBE (natDigitsBE n) = n :=
  ofDigitsBE_toDigitsLE n n le_rfl

theorem toDigitsLE_lt (fuel : ℕ) :
    ∀ n : ℕ, ∀ d ∈ toDigitsLE fuel n, d < 10 := by
  induction fuel with
  | zero => intro n d hd; simp [toDigitsLE] at hd
  | succ f ih =>
      intro n d hd
      by_cases hn : n = 0
      · simp [toDigitsLE, hn] at hd
      · have : toDigitsLE (f + 1) n = n % 10 :: toDigitsLE f (n / 10) := by
          show (if n = 0 then [] else _) = _
          rw [if_neg hn]
        rw [this] at hd
        rcases List.mem_cons.mp hd with hd | hd
        · omega
        · exact ih (n / 10) d hd

theorem natDigitsBE_lt (n : ℕ) : ∀ d ∈ natDigitsBE n, d < 10 := by
  intro d hd
  exact toDigitsLE_lt n n d (List.mem_reverse.mp hd)

theorem padDigits_lt (k : ℕ) (ds : List ℕ) (h : ∀ d ∈ ds, d < 10) :
    ∀ d ∈ padDigits k ds, d < 10 := by
  intro d hd
  rcases List.mem_append.mp hd with hd | hd
  · have := List.eq_of_mem_replicate hd
    omega
  · exact h d hd

theorem charToDigit_digitChar (d : ℕ) (h : d < 10) :
    charToDigit (digitChar d) = d := by
  interval_cases d <;> decide

theorem isDigitCh_digitChar (d : ℕ) (h : d < 10) :
    isDigitCh (digitChar d) = true := by
  interval_cases d <;> decide

theorem digitChar_not_special (d : ℕ) (h : d < 10) :
    digitChar d ≠ '.' ∧ digitChar d ≠ '-' ∧ digitChar d ≠ ',' ∧
      digitChar d ≠ '\n' := by
  interval_cases d <;> decide

theorem digitsVal_map_digitChar (ds : List ℕ) (h : ∀ d ∈ ds, d < 10) :
    digitsVal (ds.map digitChar) = ofDigitsBE ds := by
  unfold digitsVal
  rw [List.map_map]
  have hmap : ds.map (charToDigit ∘ digitChar) = ds.map id :=
    List.map_congr_left (fun d hd => charToDigit_digitChar d (h d hd))
  rw [hmap, List.map_id]

theorem all_isDigitCh_map (ds : List ℕ) (h : ∀ d ∈ ds, d < 10) :
    (ds.map digitChar).all isDigitCh = true := by
  rw [List.all_eq_true]
  intro c hc
  rcases List.mem_map.mp hc with ⟨d, hd, rfl⟩
  exact isDigitCh_digitChar d (h d hd)

theorem splitDot_of_no_dot (cs : List Char) (h : ∀ c ∈ cs, c ≠ '.') :
    splitDot cs = none := by
  induction cs with
  | nil => rfl
  | cons c cs ih =>
      show (if c = '.' then _ else (splitDot cs).map _) = none
      rw [if_neg (h c (List.mem_cons_self _ _)),
        ih (fun x hx => h x (List.mem_cons_of_mem _ hx))]
      rfl

theorem splitDot_append (ip fp : List Char) (h : ∀ c ∈ ip, c ≠ '.') :
    splitDot (ip ++ '.' :: fp) = some (ip, fp) := by
  induction ip with
  | nil =>
      show (if ('.' : Char) = '.' then some ([], fp) else _) = _
      rw [if_pos rfl]
  | cons c cs ih =>
      show (if c = '.' then _ else (splitDot (cs ++ '.' :: fp)).map _) = _
      rw [if_neg (h c (List.mem_cons_self _ _)),
        ih (fun x hx => h x (List.mem_cons_of_mem _ hx))]
      rfl

theorem map_digitChar_no_dot (ds : List ℕ) (h : ∀ d ∈ ds, d < 10) :
    ∀ c ∈ ds.map digitChar, c ≠ '.' := by
  intro c hc
  rcases List.mem_map.mp hc with ⟨d, hd, rfl⟩
  exact (digitChar_not_special d (h d hd)).1

theorem printDecUnsigned_zero_exp (m : ℕ) :
    printDecUnsigned m 0 = (padDigits 1 (natDigitsBE m)).map digitChar := by
  simp [printDecUnsigned, List.take_length]

theorem parseUnsigned_printDecUnsigned (m e : ℕ) :
    parseUnsigned (printDecUnsigned m e) = some ⟨(m : ℤ), e⟩ := by
  by_cases he : e = 0
  · subst he
    rw [printDecUnsigned_zero_exp]
    have hds : ∀ d ∈ padDigits 1 (natDigitsBE m), d < 10 :=
      padDigits_lt 1 _ (natDigitsBE_lt m)
    have hlen : 1 ≤ (padDigits 1 (natDigitsBE m)).length := by
      rw [padDigits, List.length_append, List.length_replicate]
      omega
    have hne : ((padDigits 1 (natDigitsBE m)).map digitChar).isEmpty = false := by
      rw [List.isEmpty_eq_false]
      intro hc
      have := congrArg List.length hc
      rw [List.length_map, List.length_nil] at this
      omega
    unfold parseUnsigned
    rw [splitDot_of_no_dot _ (map_digitChar_no_dot _ hds)]
    simp only [hne, Bool.not_false, Bool.true_and, all_isDigitCh_map _ hds,
      if_true]
    rw [digitsVal_map_digitChar _ hds, ofDigitsBE_padDigits,
      ofDigitsBE_natDigitsBE]
  · have hds : ∀ d ∈ padDigits (e + 1) (natDigitsBE m), d < 10 :=
      padDigits_lt (e + 1) _ (natDigitsBE_lt m)
    have hlen : e + 1 ≤ (padDigits (e + 1) (natDigitsBE m)).length := by
      rw [padDigits, List.length_append, List.length_replicate]
      omega
    have hip_lt : ∀ d ∈ (padDigits (e + 1) (natDigitsBE m)).take
        ((padDigits (e + 1) (natDigitsBE m)).length - e), d < 10 :=
      fun d hd => hds d (List.take_subset _ _ hd)
    have hfp_lt : ∀ d ∈ (padDigits (e + 1) (natDigitsBE m)).drop
        ((padDigits (e + 1) (natDigitsBE m)).length - e), d < 10 :=
      fun d hd => hds d (List.drop_subset _ _ hd)
    have hip_len : ((padDigits (e + 1) (natDigitsBE m)).take
        ((padDigits (e + 1) (natDigitsBE m)).length - e)).length =
          (padDigits (e + 1) (natDigitsBE m)).length - e := by
      rw [List.length_take]
      omega
    have hfp_len : ((padDigits (e + 1) (natDigitsBE m)).drop
        ((padDigits (e + 1) (natDigitsBE m)).length - e)).length = e := by
      rw [List.length_drop]
      omega
    have hprint : printDecUnsigned m e =
        ((padDigits (e + 1) (natDigitsBE m)).take
          ((padDigits (e + 1) (natDigitsBE m)).length - e)).map digitChar ++
        '.' :: ((padDigits (e + 1) (natDigitsBE m)).drop
          ((padDigits (e + 1) (natDigitsBE m)).length - e)).map digitChar := by
      simp only [printDecUnsigned, if_neg he]
    rw [hprint]
    unfold parseUnsigned
    rw [splitDot_append _ _ (map_digitChar_no_dot _ hip_lt)]
    have hipne : (((padDigits (e + 1) (natDigitsBE m)).take
        ((padDigits (e + 1) (natDigitsBE m)).length - e)).map
          digitChar).isEmpty = false := by
      rw [List.isEmpty_eq_false]
      intro hc
      have := congrArg List.length hc
      rw [List.length_map, hip_len, List.length_nil] at this
      omega
    have hfpne : (((padDigits (e + 1) (natDigitsBE m)).drop
        ((padDigits (e + 1) (natDigitsBE m)).length - e)).map
          digitChar).isEmpty = false := by
      rw [List.isEmpty_eq_false]
      intro hc
      have := congrArg List.length hc
      rw [List.length_map, hfp_len, List.length_nil] at this
      omega
    simp only [hipne, hfpne, Bool.not_false, Bool.true_and, Bool.and_true,
      all_isDigitCh_map _ hip_lt, all_isDigitCh_map _ hfp_lt, if_true]
    rw [digitsVal_map_digitChar _ hip_lt, digitsVal_map_digitChar _ hfp_lt,
      List.length_map, hfp_len]
    have hval : ofDigitsBE ((padDigits (e + 1) (natDigitsBE m)).take
          ((padDigits (e + 1) (natDigitsBE m)).length - e)) * 10 ^ e +
        ofDigitsBE ((padDigits (e + 1) (natDigitsBE m)).drop
          ((padDigits (e + 1) (natDigitsBE m)).length - e)) = m := by
      have happ := ofDigitsBE_append
        ((padDigits (e + 1) (natDigitsBE m)).take
          ((padDigits (e + 1) (natDigitsBE m)).length - e))
        ((padDigits (e + 1) (natDigitsBE m)).drop
          ((padDigits (e + 1) (natDigitsBE m)).length - e))
      rw [List.take_append_drop, hfp_len, ofDigitsBE_padDigits,
        ofDigitsBE_natDigitsBE] at happ
      exact happ.symm
    simp only [Option.some.injEq, Dec.mk.injEq]
    refine ⟨?_, by trivial⟩
    exact_mod_cast congrArg (fun n : ℕ => (n : ℤ)) hval

theorem printDecUnsigned_ne_nil (m e : ℕ) : printDecUnsigned m e ≠ [] := by
  intro hc
  have h1 := parseUnsigned_printDecUnsigned m e
  have h2 : parseUnsigned ([] : List Char) = none := rfl
  rw [hc, h2] at h1
  exact Option.noConfusion h1

theorem printDecUnsigned_chars (m e : ℕ) :
    ∀ c ∈ printDecUnsigned m e,
      (∃ d, d < 10 ∧ c = digitChar d) ∨ c = '.' := by
  simp only [printDecUnsigned]
  intro c hc
  rcases List.mem_append.mp hc with hc | hc
  · rcases List.mem_map.mp hc with ⟨d, hd, rfl⟩
    exact Or.inl ⟨d, padDigits_lt _ _ (natDigitsBE_lt m) d
      (List.take_subset _ _ hd), rfl⟩
  · by_cases he : e = 0
    · rw [if_pos he] at hc
      simp at hc
    · rw [if_neg he] at hc
      rcases List.mem_cons.mp hc with hc | hc
      · exact Or.inr hc
      · rcases List.mem_map.mp hc with ⟨d, hd, rfl⟩
        exact Or.inl ⟨d, padDigits_lt _ _ (natDigitsBE_lt m) d
          (List.drop_subset _ _ hd), rfl⟩

theorem printDec_sep_free (d : Dec) :
    ∀ c ∈ printDec d, c ≠ ',' ∧ c ≠ '\n' := by
  intro c hc
  unfold printDec at hc
  rcases List.mem_append.mp hc with hc | hc
  · by_cases hm : d.mant < 0
    · rw [if_pos hm] at hc
      rcases List.mem_singleton.mp hc with rfl
      exact ⟨by decide, by decide⟩
    · rw [if_neg hm] at hc
      simp at hc
  · rcases printDecUnsigned_chars _ _ c hc with ⟨d', hd', rfl⟩ | rfl
    · exact ⟨(digitChar_not_special d' hd').2.2.1,
        (digitChar_not_special d' hd').2.2.2⟩
    · exact ⟨by decide, by decide⟩

theorem parseDec_printDec (d : Dec) : parseDec (printDec d) = some d := by
  obtain ⟨m, e⟩ := d
  by_cases hm : m < 0
  · have hprint : printDec ⟨m, e⟩ = '-' :: printDecUnsigned m.natAbs e := by
      unfold printDec
      rw [if_pos hm]
      rfl
    rw [hprint]
    unfold parseDec
    rw [if_pos (show (('-' :: printDecUnsigned m.natAbs e).head? =
      some '-') from rfl)]
    rw [show ('-' :: printDecUnsigned m.natAbs e).tail =
        printDecUnsigned m.natAbs e from rfl,
      parseUnsigned_printDecUnsigned, Option.map_some']
    have hcast : -((m.natAbs : ℤ)) = m := by omega
    rw [hcast]
  · have hprint : printDec ⟨m, e⟩ = printDecUnsigned m.natAbs e := by
      unfold printDec
      rw [if_neg hm]
      rfl
    rw [hprint]
    unfold parseDec
    have hne := printDecUnsigned_ne_nil m.natAbs e
    rw [if_neg ?hnotminus]
    case hnotminus =>
      rw [List.head?_eq_head hne]
      intro hc
      have hc' : (printDecUnsigned m.natAbs e).head hne = '-' :=
        Option.some.inj hc
      have hmem := List.head_mem hne
      rw [hc'] at hmem
      rcases printDecUnsigned_chars _ _ '-' hmem with ⟨d', hd', heq⟩ | heq
      · exact (digitChar_not_special d' hd').2.1 heq.symm
      · exact absurd heq (by decide)
    rw [parseUnsigned_printDecUnsigned]
    have hcast : ((m.natAbs : ℤ)) = m := by omega
    rw [hcast]

/-! ## The screening report and its CSV export (`app.py` lines 270-287)

```python
result_df = pd.DataFrame([{ "timestamp": datetime.utcnow().isoformat(),
    "age": inputs["Age"], "predicted_class": int(pred),
    "probability_dyslexia": float(prob), "risk_level": risk_level }])
csv_bytes = result_df.to_csv(index=False).encode("utf-8")
```
-/

/-- The result record serialized by the exports (`result_df`'s single row):
timestamp text, age, predicted class (0 or 1), dyslexia probability, risk
tier. -/
structure ScreeningReport where
  timestamp : List Char
  age : Dec
  predicted_class : ℕ
  probability_dyslexia : Dec
  risk_level : String

/-- The CSV header row written by `result_df.to_csv(index=False)`. -/
def csvHeader : List Char :=
  "timestamp,age,predicted_class,probability_dyslexia,risk_level".data

/-- Join fields with a separator character. -/
def joinFields (sep : Char) : List (List Char) → List Char
  | [] => []
  | [f] => f
  | f :: fs => f ++ sep :: joinFields sep fs

/-- The data-row fields of the CSV export, in the fixed column order of
`app.py` lines 270-280 (the predicted class is rendered as a plain int). -/
def rowFields (r : ScreeningReport) : List (List Char) :=
  [r.timestamp, printDec r.age, printDecUnsigned r.predicted_class 0,
   printDec r.probability_dyslexia, r.risk_level.data]

/-- `csv_bytes` (`app.py` line 281): header line, newline, the single data
row, trailing newline. -/
def to_csv (r : ScreeningReport) : List Char :=
  csvHeader ++ '\n' :: (joinFields ',' (rowFields r) ++ ['\n'])

/-- Split a character list on a separator character (this table needs no
quoting — no field of it contains a separator). -/
def splitOnCh (sep : Char) : List Char → List (List Char)
  | [] => [[]]
  | c :: cs =>
      if c = sep then [] :: splitOnCh sep cs
      else
        match splitOnCh sep cs with
        | [] => [[c]]
        | f :: fs => (c :: f) :: fs

/-- Parse the predicted-class field: a plain string of digits. -/
def parseNatField (cs : List Char) : Option ℕ :=
  if !cs.isEmpty && cs.all isDigitCh then some (digitsVal cs) else none

/-- Parse the five comma-separated fields of the data row. -/
def parseFields : List (List Char) → Option ScreeningReport
  | [ts, ageS, pcS, probS, riskS] =>
      match parseDec ageS, parseNatField pcS, parseDec probS with
      | some age, some pc, some prob =>
          some ⟨ts, age, pc, prob, String.mk riskS⟩
      | _, _, _ => none
  | _ => none

/-- Parse the newline-split lines of the table: the header, one data row,
and the empty trailer after the final newline. -/
def parseLines : List (List Char) → Option ScreeningReport
  | [hdr, row, tail] =>
      if hdr = csvHeader ∧ tail = [] then parseFields (splitOnCh ',' row)
      else none
  | _ => none

/-- Parse the single-row CSV table back into a report. -/
def parse_csv (cs : List Char) : Option ScreeningReport :=
  parseLines (splitOnCh '\n' cs)

/-! ### CSV lemmas -/

theorem splitOnCh_no_sep (sep : Char) (f : List Char)
    (h : ∀ c ∈ f, c ≠ sep) : splitOnCh sep f = [f] := by
  induction f with
  | nil => rfl
  | cons c cs ih =>
      unfold splitOnCh
      rw [if_neg (h c (List.mem_cons_self _ _)),
        ih (fun x hx => h x (List.mem_cons_of_mem _ hx))]

theorem splitOnCh_append (sep : Char) (f t : List Char)
    (h : ∀ c ∈ f, c ≠ sep) :
    splitOnCh sep (f ++ sep :: t) = f :: splitOnCh sep t := by
  induction f with
  | nil =>
      show splitOnCh sep (sep :: t) = [] :: splitOnCh sep t
      conv_lhs => unfold splitOnCh
      rw [if_pos rfl]
  | cons c cs ih =>
      show splitOnCh sep (c :: (cs ++ sep :: t)) = (c :: cs) :: splitOnCh sep t
      conv_lhs => unfold splitOnCh
      rw [if_neg (h c (List.mem_cons_self _ _)),
        ih (fun x hx => h x (List.mem_cons_of_mem _ hx))]

theorem mem_joinFields (sep : Char) (fields : List (List Char)) (c : Char)
    (hc : c ∈ joinFields sep fields) : c = sep ∨ ∃ f ∈ fields, c ∈ f := by
  induction fields with
  | nil => simp [joinFields] at hc
  | cons f fs ih =>
      cases fs with
      | nil => exact Or.inr ⟨f, List.mem_cons_self _ _, hc⟩
      | cons g gs =>
          have hc' : c ∈ f ++ sep :: joinFields sep (g :: gs) := hc
          rcases List.mem_append.mp hc' with h1 | h1
          · exact Or.inr ⟨f, List.mem_cons_self _ _, h1⟩
          · rcases List.mem_cons.mp h1 with h2 | h2
            · exact Or.inl h2
            · rcases ih h2 with h3 | ⟨f', hf', hcf'⟩
              · exact Or.inl h3
              · exact Or.inr ⟨f', List.mem_cons_of_mem _ hf', hcf'⟩

theorem joinFields_split (sep : Char) (fields : List (List Char))
    (hne : fields ≠ [])
    (h : ∀ f ∈ fields, ∀ c ∈ f, c ≠ sep) :
    splitOnCh sep (joinFields sep fields) = fields := by
  induction fields with
  | nil => exact absurd rfl hne
  | cons f fs ih =>
      cases fs with
      | nil =>
          show splitOnCh sep f = [f]
          exact splitOnCh_no_sep sep f (h f (List.mem_cons_self _ _))
      | cons g gs =>
          show splitOnCh sep (f ++ sep :: joinFields sep (g :: gs)) = _
          rw [splitOnCh_append sep f _ (h f (List.mem_cons_self _ _)),
            ih (by simp) (fun f' hf' => h f' (List.mem_cons_of_mem _ hf'))]

theorem parseNatField_printDecUnsigned (m : ℕ) :
    parseNatField (printDecUnsigned m 0) = some m := by
  rw [printDecUnsigned_zero_exp]
  have hds : ∀ d ∈ padDigits 1 (natDigitsBE m), d < 10 :=
    padDigits_lt 1 _ (natDigitsBE_lt m)
  have hlen : 1 ≤ (padDigits 1 (natDigitsBE m)).length := by
    rw [padDigits, List.length_append, List.length_replicate]
    omega
  have hne : ((padDigits 1 (natDigitsBE m)).map digitChar).isEmpty = false := by
    rw [List.isEmpty_eq_false]
    intro hc
    have := congrArg List.length hc
    rw [List.length_map, List.length_nil] at this
    omega
  unfold parseNatField
  simp only [hne, Bool.not_false, Bool.true_and, all_isDigitCh_map _ hds,
    if_true]
  rw [digitsVal_map_digitChar _ hds, ofDigitsBE_padDigits,
    ofDigitsBE_natDigitsBE]

theorem printDecUnsigned_sep_free (m e : ℕ) :
    ∀ c ∈ printDecUnsigned m e, c ≠ ',' ∧ c ≠ '\n' := by
  intro c hc
  rcases printDecUnsigned_chars m e c hc with ⟨d', hd', rfl⟩ | rfl
  · exact ⟨(digitChar_not_special d' hd').2.2.1,
      (digitChar_not_special d' hd').2.2.2⟩
  · exact ⟨by decide, by decide⟩

theorem rowFields_sep_free (r : ScreeningReport)
    (hts : ∀ c ∈ r.timestamp, c ≠ ',' ∧ c ≠ '\n')
    (hrisk : ∀ c ∈ r.risk_level.data, c ≠ ',' ∧ c ≠ '\n') :
    ∀ f ∈ rowFields r, ∀ c ∈ f, c ≠ ',' ∧ c ≠ '\n' := by
  intro f hf
  simp only [rowFields, List.mem_cons, List.not_mem_nil, or_false] at hf
  rcases hf with rfl | rfl | rfl | rfl | rfl
  · exact hts
  · exact printDec_sep_free r.age
  · exact printDecUnsigned_sep_free _ 0
  · exact printDec_sep_free r.probability_dyslexia
  · exact hrisk

theorem parse_to_csv_eq (r : ScreeningReport)
    (hts : ∀ c ∈ r.timestamp, c ≠ ',' ∧ c ≠ '\n')
    (hrisk : ∀ c ∈ r.risk_level.data, c ≠ ',' ∧ c ≠ '\n') :
    parse_csv (to_csv r) = some r := by
  have hfields := rowFields_sep_free r hts hrisk
  have hrow_nl : ∀ c ∈ joinFields ',' (rowFields r), c ≠ '\n' := by
    intro c hc
    rcases mem_joinFields ',' _ c hc with rfl | ⟨f, hf, hcf⟩
    · decide
    · exact (hfields f hf c hcf).2
  have hhdr_nl : ∀ c ∈ csvHeader, c ≠ '\n' := by decide
  have hsplit1 : splitOnCh '\n' (to_csv r) =
      [csvHeader, joinFields ',' (rowFields r), []] := by
    unfold to_csv
    rw [splitOnCh_append '\n' csvHeader _ hhdr_nl,
      show (joinFields ',' (rowFields r) ++ ['\n'] : List Char) =
        joinFields ',' (rowFields r) ++ '\n' :: [] from rfl,
      splitOnCh_append '\n' _ _ hrow_nl]
    rfl
  have hsplit2 : splitOnCh ',' (joinFields ',' (rowFields r)) = rowFields r :=
    joinFields_split ',' (rowFields r) (by simp [rowFields])
      (fun f hf c hc => (hfields f hf c hc).1)
  unfold parse_csv
  rw [hsplit1]
  show (if csvHeader = csvHeader ∧ ([] : List Char) = [] then
    parseFields (splitOnCh ',' (joinFields ',' (rowFields r))) else none) =
      some r
  rw [if_pos ⟨rfl, rfl⟩, hsplit2]
  show (match parseDec (printDec r.age),
      parseNatField (printDecUnsigned r.predicted_class 0),
      parseDec (printDec r.probability_dyslexia) with
    | some age, some pc, some prob =>
        some (⟨r.timestamp, age, pc, prob,
          String.mk r.risk_level.data⟩ : ScreeningReport)
    | _, _, _ => none) = some r
  rw [parseDec_printDec, parseNatField_printDecUnsigned, parseDec_printDec]

/-- C4: round-trip through the tabular export — exporting a report to the
delimited table (header row `timestamp,age,predicted_class,
probability_dyslexia,risk_level` followed by one data row) and parsing that
table back reproduces the report exactly: the same age, predicted class and
risk level, and a probability exactly equal to the original (hence within
any rounding tolerance).  The hypotheses say the timestamp and tier strings
contain no separator characters; ISO-8601 timestamps and the three tier
names never do. -/
theorem csv_round_trip (r : ScreeningReport)
    (hts : ∀ c ∈ r.timestamp, c ≠ ',' ∧ c ≠ '\n')
    (hrisk : ∀ c ∈ r.risk_level.data, c ≠ ',' ∧ c ≠ '\n') :
    parse_csv (to_csv r) = some r :=
  parse_to_csv_eq r hts hrisk

/-- C4 witness: a concrete report (age 10.0, class 0, probability 0.123,
tier Low) survives the round trip. -/
theorem csv_round_trip_witness :
    (∀ c ∈ ("2025-01-01T00:00:00".data : List Char), c ≠ ',' ∧ c ≠ '\n') ∧
    (∀ c ∈ ("Low".data : List Char), c ≠ ',' ∧ c ≠ '\n') ∧
    parse_csv (to_csv
      ⟨"2025-01-01T00:00:00".data, ⟨100, 1⟩, 0, ⟨123, 3⟩, "Low"⟩) =
      some ⟨"2025-01-01T00:00:00".data, ⟨100, 1⟩, 0, ⟨123, 3⟩, "Low"⟩ := by
  refine ⟨by decide, by decide, ?_⟩
  exact csv_round_trip
    ⟨"2025-01-01T00:00:00".data, ⟨100, 1⟩, 0, ⟨123, 3⟩, "Low"⟩
    (by decide) (by decide)

/-! ## Export determinism (`app.py` lines 270-281 and 289-356)

Both exports read the clock themselves: the CSV row is built with
`datetime.utcnow().isoformat()` (line 273) and the PDF draws
`datetime.utcnow().isoformat(timespec='seconds')` (line 301).  There is no
report object holding a build-time timestamp; each export is a function of
the result fields and of the clock reading it takes when it runs. -/

/-- `app.py` lines 270-281: the CSV export; `now` is the
`datetime.utcnow().isoformat()` reading taken when the export is built. -/
def csvExport (age : Dec) (pred : ℕ) (prob : Dec) (risk : String)
    (now : List Char) : List Char :=
  to_csv ⟨now, age, pred, prob, risk⟩

/-- Round `a / b` (for `b > 0`) to the nearest integer, ties to even — the
rounding applied when formatting to a fixed number of decimals. -/
def divRoundHalfEven (a b : ℤ) : ℤ :=
  let q := Int.fdiv a b
  let r := a - q * b
  if 2 * r < b then q
  else if b < 2 * r then q + 1
  else if q % 2 = 0 then q else q + 1

/-- Python `f"{x:.kf}"` applied to the exact decimal value `d`: round to `k`
fractional digits, half to even, and print with exactly `k` decimals. -/
def fmtFixed (d : Dec) (k : ℕ) : List Char :=
  printDec ⟨divRoundHalfEven (d.mant * (10 : ℤ) ^ k) ((10 : ℤ) ^ d.exp), k⟩

/-- `app.py` lines 289-353: the text lines drawn onto the PDF canvas, top to
bottom; `now2` is the `datetime.utcnow().isoformat(timespec='seconds')`
reading taken at line 301, when the export is built. -/
def pdfLines (age : Dec) (pred : ℕ) (prob : Dec) (risk : String)
    (now2 : List Char) : List (List Char) :=
  ["Dyslexia Screening Report".data,
   "Generated (UTC): ".data ++ now2,
   "Student age: ".data ++ fmtFixed age 1,
   "Predicted class (1 = Yes, 0 = No): ".data ++ printDecUnsigned pred 0,
   "Model probability of dyslexia: ".data ++ fmtFixed prob 3,
   "Risk level: ".data ++ risk.data,
   "Interpretation (high level):".data] ++
  wrapLines90 (interpretationText risk).data ++
  ["This report is a research prototype output and not a clinical or educational diagnosis.".data]

/-- C5 counterexample: the same result fields exported at two different
clock readings give different bytes for the CSV export and different text
for the PDF — each export re-reads the clock, so it is not a pure function
of the report alone. -/
theorem export_reads_clock_counterexample :
    csvExport ⟨100, 1⟩ 0 ⟨25, 2⟩ "Low" "2025-01-01T00:00:00".data ≠
      csvExport ⟨100, 1⟩ 0 ⟨25, 2⟩ "Low" "2025-01-01T00:00:01".data ∧
    pdfLines ⟨100, 1⟩ 0 ⟨25, 2⟩ "Low" "2025-01-01T00:00:00".data ≠
      pdfLines ⟨100, 1⟩ 0 ⟨25, 2⟩ "Low" "2025-01-01T00:00:01".data := by
  decide

/-- C5 amended: each export is a deterministic function of the result fields
together with the clock reading it takes at export time, and it embeds that
reading verbatim: two runs over the same fields produce byte-identical
output exactly when their clock readings coincide (the CSV and the PDF each
take their own reading when produced, not at any report-build time). -/
theorem export_determined_by_fields_and_clock (age : Dec) (pred : ℕ)
    (prob : Dec) (risk : String) (t1 t2 : List Char)
    (h1 : ∀ c ∈ t1, c ≠ ',' ∧ c ≠ '\n')
    (h2 : ∀ c ∈ t2, c ≠ ',' ∧ c ≠ '\n')
    (hr : ∀ c ∈ risk.data, c ≠ ',' ∧ c ≠ '\n') :
    (csvExport age pred prob risk t1 = csvExport age pred prob risk t2 ↔
      t1 = t2) ∧
    (pdfLines age pred prob risk t1 = pdfLines age pred prob risk t2 ↔
      t1 = t2) := by
  constructor
  · constructor
    · intro h
      have e1 : parse_csv (csvExport age pred prob risk t1) =
          some ⟨t1, age, pred, prob, risk⟩ :=
        parse_to_csv_eq ⟨t1, age, pred, prob, risk⟩ h1 hr
      have e2 : parse_csv (csvExport age pred prob risk t2) =
          some ⟨t2, age, pred, prob, risk⟩ :=
        parse_to_csv_eq ⟨t2, age, pred, prob, risk⟩ h2 hr
      rw [h, e2] at e1
      have h3 := Option.some.inj e1
      exact (congrArg ScreeningReport.timestamp h3).symm
    · intro h
      rw [h]
  · constructor
    · intro h
      have hx := congrArg (fun l : List (List Char) => l[1]?) h
      simp [pdfLines] at hx
      exact hx
    · intro h
      rw [h]

/-- C5 amended witness: concrete fields and two clock readings. -/
theorem export_determined_witness :
    (∀ c ∈ ("A".data : List Char), c ≠ ',' ∧ c ≠ '\n') ∧
    (∀ c ∈ ("B".data : List Char), c ≠ ',' ∧ c ≠ '\n') ∧
    (∀ c ∈ ("Low".data : List Char), c ≠ ',' ∧ c ≠ '\n') ∧
    (csvExport ⟨100, 1⟩ 0 ⟨25, 2⟩ "Low" "A".data =
        csvExport ⟨100, 1⟩ 0 ⟨25, 2⟩ "Low" "B".data ↔
      "A".data = "B".data) := by
  refine ⟨by decide, by decide, by decide, ?_⟩
  exact (export_determined_by_fields_and_clock ⟨100, 1⟩ 0 ⟨25, 2⟩ "Low"
    "A".data "B".data (by decide) (by decide) (by decide)).1

end DyslexiaApp
